import Mathlib

/-!
Shallow embedding of `src/kde.py` (Botev–Grotowski–Kroese diffusion KDE,
Daniel Smith's Python port) and verification of its specification.

Python floats (including the `np.float128` extended-precision values used in
`fixed_point`) are modelled as exact real numbers.  Vectors are modelled as
functions `ℕ → ℝ` read on `Finset.range N`; the mesh, which the source builds
as a Python list, is modelled as a `List ℝ`.  The external collaborators are
modelled at their documented interfaces:

* `np.histogram(data, bins=N, range=(MIN, MAX))` — equal-width bins on
  `[MIN, MAX]`, all but the last half-open, out-of-range samples dropped;
* `scipy.fftpack.dct/idct(·, norm='ortho')` — the orthonormal DCT-II/DCT-III
  pair, written out from their documented formulas;
* `scipy.optimize.brentq` — kept as an oracle parameter
  `(ℝ → ℝ) → ℝ → ℝ → ℝ` (objective, bracket left, bracket right), since the
  only contract the spec relies on is that a returned value is a root inside
  the bracket.
-/

/- ### Collaborator: `np.histogram` (kde.py line 35) -/

/-- Bin edge `i` of `np.histogram(·, bins=N, range=(mn, mx))`:
numpy builds the edges as `linspace(mn, mx, N+1)`, i.e. `mn + i*(mx-mn)/N`. -/
noncomputable def binEdge (mn mx : ℝ) (N : ℕ) (i : ℕ) : ℝ :=
  mn + (i : ℝ) * ((mx - mn) / (N : ℝ))

/-- Membership of a sample `x` in histogram bin `i`: numpy's bins are
half-open `[edge i, edge (i+1))` except the last, which is closed at `mx`. -/
noncomputable def inBinB (mn mx : ℝ) (N : ℕ) (i : ℕ) (x : ℝ) : Bool :=
  decide (binEdge mn mx N i ≤ x) &&
    (if i + 1 = N then decide (x ≤ mx) else decide (x < binEdge mn mx N (i + 1)))

/-- Raw count of samples in bin `i` (`DataHist` before normalization). -/
noncomputable def histCount (data : List ℝ) (mn mx : ℝ) (N : ℕ) (i : ℕ) : ℕ :=
  data.countP (inBinB mn mx N i)

/-- Line 36: `DataHist = DataHist/M`, the empirical mass vector. -/
noncomputable def histMass (data : List ℝ) (mn mx : ℝ) (N : ℕ) (i : ℕ) : ℝ :=
  (histCount data mn mx N i : ℝ) / (data.length : ℝ)

/- ### Collaborator: `scipy.fftpack` orthonormal cosine transform pair -/

/-- Model of `scipy.fftpack.dct(x, norm='ortho')` (DCT-II): coefficient `k` is
`f(k) * 2 * ∑ x_n cos(π k (2n+1) / (2N))` with `f(0) = √(1/(4N))` and
`f(k) = √(1/(2N))` otherwise. -/
noncomputable def dctOrtho (N : ℕ) (x : ℕ → ℝ) (k : ℕ) : ℝ :=
  (if k = 0 then Real.sqrt (1 / (4 * (N : ℝ))) else Real.sqrt (1 / (2 * (N : ℝ)))) * 2 *
    ∑ n in Finset.range N, x n * Real.cos (Real.pi * (k : ℝ) * (2 * (n : ℝ) + 1) / (2 * (N : ℝ)))

/-- Model of `scipy.fftpack.idct(X, norm='ortho')` (DCT-III, the inverse of the
above):
entry `n` is `X_0/√N + √(2/N) * ∑_{k≥1} X_k cos(π k (2n+1) / (2N))`. -/
noncomputable def idctOrtho (N : ℕ) (X : ℕ → ℝ) (n : ℕ) : ℝ :=
  ∑ k in Finset.range N,
    (if k = 0 then Real.sqrt (1 / (N : ℝ)) else Real.sqrt (2 / (N : ℝ))) * X k *
      Real.cos (Real.pi * (k : ℝ) * (2 * (n : ℝ) + 1) / (2 * (N : ℝ)))

/- ### `fixed_point` (kde.py lines 54-65) -/

/-- The weighted moment sum appearing on lines 59 and 64:
`2*pi**(2*s)*np.sum(I**s*a2*np.exp(-I*np.pi**2*time))`, where `Iv` and `a2`
are the index-squared and squared-coefficient arrays of length `n`. -/
noncomputable def phi (Iv a2 : ℕ → ℝ) (n : ℕ) (s : ℕ) (time : ℝ) : ℝ :=
  2 * Real.pi ^ (2 * s) *
    ∑ i in Finset.range n, (Iv i) ^ s * a2 i * Real.exp (-(Iv i) * Real.pi ^ 2 * time)

/-- Line 61: `K0 = np.prod(xrange(1, 2*s, 2))/np.sqrt(2*np.pi)`;
`xrange(1, 2*s, 2)` enumerates `1, 3, ..., 2*s-1`, which is
`List.range' 1 s 2`. -/
noncomputable def K0 (s : ℕ) : ℝ :=
  ((List.range' 1 s 2).prod : ℝ) / Real.sqrt (2 * Real.pi)

/-- Line 62: `const = (1 + (1/2)**(s + 1/2))/3` (real exponent, so `rpow`). -/
noncomputable def constS (s : ℕ) : ℝ :=
  (1 + (1 / 2 : ℝ) ^ ((s : ℝ) + 1 / 2)) / 3

/-- Line 63: `time = (2*const*K0/M/f)**(2/(3+2*s))`. -/
noncomputable def timeS (M f : ℝ) (s : ℕ) : ℝ :=
  (2 * constS s * K0 s / M / f) ^ ((2 : ℝ) / (3 + 2 * (s : ℝ)))

/-- One iteration of the loop on lines 60-64: from the carried value `f` at
order `s`, compute `time` and update `f` to the moment sum of order `s`
evaluated at that `time` (line 64 uses `I**s` and `pi**(2*s)`). -/
noncomputable def descentStep (M : ℝ) (Iv a2 : ℕ → ℝ) (n : ℕ) (f : ℝ) (s : ℕ) : ℝ :=
  phi Iv a2 n s (timeS M f s)

/-- Lines 59-64: `f` is initialized to `phi 7 t` (line 59, `l = 7`) and the
loop runs `for s in range(l, 1, -1)`, i.e. over `[7, 6, 5, 4, 3, 2]`. -/
noncomputable def descent (M : ℝ) (Iv a2 : ℕ → ℝ) (n : ℕ) (t : ℝ) : ℝ :=
  List.foldl (descentStep M Iv a2 n) (phi Iv a2 n 7 t) [7, 6, 5, 4, 3, 2]

/-- Line 65: `return t-(2*M*np.sqrt(np.pi)*f)**(-2/5)`. -/
noncomputable def fixed_point (t : ℝ) (M : ℝ) (Iv a2 : ℕ → ℝ) (n : ℕ) : ℝ :=
  t - (2 * M * Real.sqrt Real.pi * descent M Iv a2 n t) ^ (-(2 : ℝ) / 5)

/- ### `kde` (kde.py lines 19-52) -/

/-- Model of `np.min(data)` for the nonempty lists on which the source calls it. -/
noncomputable def dataMin : List ℝ → ℝ
  | [] => 0
  | x :: xs => xs.foldl min x

/-- Model of `np.max(data)` for the nonempty lists on which the source calls it. -/
noncomputable def dataMax : List ℝ → ℝ
  | [] => 0
  | x :: xs => xs.foldl max x

/-- Line 22: `N = 2**np.ceil(np.log2(N))`. -/
noncomputable def gridN (Nreq : ℕ) : ℕ :=
  2 ^ (⌈Real.logb 2 (Nreq : ℝ)⌉.toNat)

/-- Lines 23-28: `MIN = minimum - Range/10 if MIN is None else MIN`. -/
noncomputable def kdeMIN (data : List ℝ) (MINo : Option ℝ) : ℝ :=
  match MINo with
  | some m => m
  | none => dataMin data - (dataMax data - dataMin data) / 10

/-- Lines 23-28: `MAX = maximum + Range/10 if MAX is None else MAX`. -/
noncomputable def kdeMAX (data : List ℝ) (MAXo : Option ℝ) : ℝ :=
  match MAXo with
  | some m => m
  | none => dataMax data + (dataMax data - dataMin data) / 10

/-- Line 31: `R = MAX-MIN`. -/
noncomputable def kdeR (data : List ℝ) (MINo MAXo : Option ℝ) : ℝ :=
  kdeMAX data MAXo - kdeMIN data MINo

/-- Lines 35-36: the normalized histogram of the data. -/
noncomputable def kdeHist (data : List ℝ) (Nreq : ℕ) (MINo MAXo : Option ℝ) : ℕ → ℝ :=
  histMass data (kdeMIN data MINo) (kdeMAX data MAXo) (gridN Nreq)

/-- Line 37: `DCTData = scipy.fftpack.dct(DataHist, norm='ortho')`. -/
noncomputable def kdeDCTData (data : List ℝ) (Nreq : ℕ) (MINo MAXo : Option ℝ) : ℕ → ℝ :=
  dctOrtho (gridN Nreq) (kdeHist data Nreq MINo MAXo)

/-- Line 39: `I = (np.arange(N-1)+1)**2`; entry `i` is `(i+1)^2`. -/
noncomputable def kdeI (i : ℕ) : ℝ :=
  ((i : ℝ) + 1) ^ 2

/-- Line 40: `SqDCTData = (DCTData[1:]/2)**2`; entry `i` squares half of
coefficient `i+1` (index 0 is excluded by the slice). -/
noncomputable def kdeA2 (data : List ℝ) (Nreq : ℕ) (MINo MAXo : Option ℝ) (i : ℕ) : ℝ :=
  (kdeDCTData data Nreq MINo MAXo (i + 1) / 2) ^ 2

/-- Line 43: the objective handed to `brentq`, namely `fixed_point` applied to
`args=(M, I, SqDCTData)` with `M = len(data)` and the `N-1` moment terms. -/
noncomputable def kdeObjective (data : List ℝ) (Nreq : ℕ) (MINo MAXo : Option ℝ) : ℝ → ℝ :=
  fun t => fixed_point t (data.length : ℝ) kdeI (kdeA2 data Nreq MINo MAXo) (gridN Nreq - 1)

/-- Line 43: `t_star = scipy.optimize.brentq(fixed_point, 0, 0.1, args=...)`,
with the root finder as an oracle parameter. -/
noncomputable def kdeTstar (brentqO : (ℝ → ℝ) → ℝ → ℝ → ℝ) (data : List ℝ) (Nreq : ℕ)
    (MINo MAXo : Option ℝ) : ℝ :=
  brentqO (kdeObjective data Nreq MINo MAXo) 0 0.1

/-- Line 46: `SmDCTData = DCTData*np.exp(-np.arange(N)**2*np.pi**2*t_star/2)`. -/
noncomputable def smoothDCT (X : ℕ → ℝ) (tstar : ℝ) (i : ℕ) : ℝ :=
  X i * Real.exp (-((i : ℝ)) ^ 2 * Real.pi ^ 2 * tstar / 2)

/-- Line 49: `mesh = [(bins[i]+bins[i+1])/2 for i in xrange(N)]`, with `bins`
the histogram edges. -/
noncomputable def kdeMesh (data : List ℝ) (Nreq : ℕ) (MINo MAXo : Option ℝ) : List ℝ :=
  (List.range (gridN Nreq)).map fun i =>
    (binEdge (kdeMIN data MINo) (kdeMAX data MAXo) (gridN Nreq) i +
      binEdge (kdeMIN data MINo) (kdeMAX data MAXo) (gridN Nreq) (i + 1)) / 2

/-- The triple returned on line 52. -/
structure KDEResult where
  bandwidth : ℝ
  mesh : List ℝ
  density : ℕ → ℝ

/-- Lines 19-52 assembled: the density of line 48 is
`scipy.fftpack.idct(SmDCTData, norm='ortho')*N/R`, and the bandwidth of
line 50 is `np.sqrt(t_star)*R`. -/
noncomputable def kde (brentqO : (ℝ → ℝ) → ℝ → ℝ → ℝ) (data : List ℝ) (Nreq : ℕ)
    (MINo MAXo : Option ℝ) : KDEResult :=
  { bandwidth := Real.sqrt (kdeTstar brentqO data Nreq MINo MAXo) * kdeR data MINo MAXo
    mesh := kdeMesh data Nreq MINo MAXo
    density := fun j =>
      idctOrtho (gridN Nreq)
        (smoothDCT (kdeDCTData data Nreq MINo MAXo) (kdeTstar brentqO data Nreq MINo MAXo)) j *
        ((gridN Nreq : ℕ) : ℝ) / kdeR data MINo MAXo }

/- ### Spec-side definitions (transcribed from spec.md, for comparison) -/

/-- Spec §4.3: `K0(s)` is the product of the odd integers `1, 3, ..., 2s-1`
divided by `sqrt(2*pi)`; the numerator transcribed as a `Finset` product. -/
def oddProdSpec (s : ℕ) : ℕ :=
  ∏ j in Finset.range s, (2 * j + 1)

/-- Spec §4.3: `K0(s) = (1*3*5*...*(2s-1)) / sqrt(2*pi)`. -/
noncomputable def K0spec (s : ℕ) : ℝ :=
  (oddProdSpec s : ℝ) / Real.sqrt (2 * Real.pi)

/-- Spec §4.3: `time(s) = (2*const(s)*K0(s) / (M*f))^(2/(3+2s))` with
`const(s) = (1 + (1/2)^(s+1/2))/3`, written exactly as the spec does
(single denominator `M*f`). -/
noncomputable def specTime (M : ℝ) (s : ℕ) (f : ℝ) : ℝ :=
  (2 * ((1 + (1 / 2 : ℝ) ^ ((s : ℝ) + 1 / 2)) / 3) * K0spec s / (M * f)) ^
    ((2 : ℝ) / (3 + 2 * (s : ℝ)))

/-- Spec §4.3 step 3: `g(t) = t - (2*M*sqrt(pi)*f)^(-2/5)`, `f` being the
terminal value of the descent as a function of the candidate `t`. -/
noncomputable def gSpec (M : ℝ) (f : ℝ → ℝ) (t : ℝ) : ℝ :=
  t - (2 * M * Real.sqrt Real.pi * f t) ^ (-(2 : ℝ) / 5)

/-- Spec §4.4: multiply coefficient `i` by `exp(-i^2 pi^2 t*/2)`, apply the
inverse transform, scale by `N/R`. -/
noncomputable def reconstructSpec (coeff : ℕ → ℝ) (tstar R : ℝ) (N : ℕ) (j : ℕ) : ℝ :=
  ((N : ℝ) / R) *
    idctOrtho N (fun i => Real.exp (-((i : ℝ)) ^ 2 * Real.pi ^ 2 * tstar / 2) * coeff i) j

/- ### Error-channel model (for the error-handling claims) -/

/-- Python exceptions raised by the collaborators on the paths `kde` can hit:
`np.histogram` raises `ValueError` when the range maximum is below the
minimum, and `scipy.optimize.brentq` raises `ValueError` when the objective
has the same sign at both bracket endpoints.  The constructors record the
raising condition; both are instances of Python's `ValueError` class. -/
inductive PyExn where
  | valueErrorSignChange : PyExn
  | valueErrorRange : PyExn

/-- Whether an exception is an instance of Python's `ValueError` class. -/
def exnIsValueError : PyExn → Bool
  | .valueErrorSignChange => true
  | .valueErrorRange => true

/-- The function `kde` with the collaborators' documented error channels made explicit:
the histogram's range check runs first, then `brentq` (an oracle that may
fail) is consulted; any error aborts the call with no partial result, exactly
as a Python exception would. -/
noncomputable def kdeE (brentqE : (ℝ → ℝ) → ℝ → ℝ → Except PyExn ℝ) (data : List ℝ)
    (Nreq : ℕ) (MINo MAXo : Option ℝ) : Except PyExn KDEResult :=
  if kdeMAX data MAXo < kdeMIN data MINo then
    .error .valueErrorRange
  else
    match brentqE (kdeObjective data Nreq MINo MAXo) 0 0.1 with
    | .error e => .error e
    | .ok ts =>
        .ok { bandwidth := Real.sqrt ts * kdeR data MINo MAXo
              mesh := kdeMesh data Nreq MINo MAXo
              density := fun j =>
                idctOrtho (gridN Nreq) (smoothDCT (kdeDCTData data Nreq MINo MAXo) ts) j *
                  ((gridN Nreq : ℕ) : ℝ) / kdeR data MINo MAXo }

/- ### Shared lemmas -/

/-- The Python product `np.prod(xrange(1, 2*s, 2))` on line 61 equals the
spec's product of the odd integers `1, 3, ..., 2s-1`. -/
lemma range'_prod_eq_oddProdSpec (s : ℕ) : (List.range' 1 s 2).prod = oddProdSpec s := by
  induction s with
  | zero => rfl
  | succ s ih =>
    rw [List.range'_concat, List.prod_append, List.prod_cons, List.prod_nil, ih]
    simp only [oddProdSpec]
    rw [Finset.prod_range_succ]
    ring

/-- The code's `K0` (line 61) equals the spec's closed form `K0(s)`. -/
lemma K0_eq_K0spec (s : ℕ) : K0 s = K0spec s := by
  rw [K0, K0spec, range'_prod_eq_oddProdSpec]

/- ### C10 -/

/-- C10: the heat-kernel attenuation on line 46 multiplies spectral index 0 by
`exp(0) = 1`, so the smoothed vector agrees with the raw transform at the DC
index for every diffusion time — in particular for the `t_star` the pipeline
actually uses. -/
theorem c10_dc_coefficient_preserved :
    (∀ (X : ℕ → ℝ) (t : ℝ), smoothDCT X t 0 = X 0) ∧
    (∀ (brentqO : (ℝ → ℝ) → ℝ → ℝ → ℝ) (data : List ℝ) (Nreq : ℕ) (MINo MAXo : Option ℝ),
      smoothDCT (kdeDCTData data Nreq MINo MAXo) (kdeTstar brentqO data Nreq MINo MAXo) 0 =
        kdeDCTData data Nreq MINo MAXo 0) := by
  constructor
  · intro X t
    simp [smoothDCT]
  · intro brentqO data Nreq MINo MAXo
    simp [smoothDCT]

/- ### C3 -/

/-- C3: the density returned by `kde` (line 48) is exactly the spec's
composition: attenuate every coefficient (index 0 included) by
`exp(-i^2 pi^2 t*/2)`, apply the inverse orthonormal cosine transform, and
scale by `N/R`. -/
theorem c3_density_reconstruction (brentqO : (ℝ → ℝ) → ℝ → ℝ → ℝ) (data : List ℝ)
    (Nreq : ℕ) (MINo MAXo : Option ℝ) (j : ℕ) :
    (kde brentqO data Nreq MINo MAXo).density j =
      reconstructSpec (kdeDCTData data Nreq MINo MAXo) (kdeTstar brentqO data Nreq MINo MAXo)
        (kdeR data MINo MAXo) (gridN Nreq) j := by
  simp only [kde, reconstructSpec, idctOrtho, smoothDCT]
  rw [Finset.sum_mul, Finset.sum_div, Finset.mul_sum]
  refine Finset.sum_congr rfl fun k _ => by ring

/- ### C2 -/

/-- C2: the diffusion time is produced by handing the `fixed_point` objective
to the bracketed root finder on exactly the interval `(0, 0.1)` (line 43), and
on that bracket the root condition `objective = 0` coincides with the spec's
equation `g(t) = 0`, with `f` the terminal value of the descent initialized
from the candidate `t`. -/
theorem c2_bracketed_root_equation (brentqO : (ℝ → ℝ) → ℝ → ℝ → ℝ) (data : List ℝ)
    (Nreq : ℕ) (MINo MAXo : Option ℝ) :
    kdeTstar brentqO data Nreq MINo MAXo =
        brentqO (kdeObjective data Nreq MINo MAXo) 0 0.1 ∧
    ∀ t : ℝ, 0 < t → t < 0.1 →
      (kdeObjective data Nreq MINo MAXo t = 0 ↔
        gSpec (data.length : ℝ)
          (descent (data.length : ℝ) kdeI (kdeA2 data Nreq MINo MAXo) (gridN Nreq - 1)) t = 0) :=
  ⟨rfl, fun _ _ _ => Iff.rfl⟩

/-- Witness for C2 at the sample list `[0, 1]`, grid request 4, default
bounds, a root-finder oracle that returns `1/20`, and candidate `t = 1/20`. -/
theorem c2_witness :
    kdeTstar (fun _ _ _ => (1/20 : ℝ)) [0, 1] 4 none none =
        (fun _ _ _ => (1/20 : ℝ)) (kdeObjective [0, 1] 4 none none) 0 0.1 ∧
    (0 : ℝ) < 1/20 ∧ (1/20 : ℝ) < 0.1 ∧
    (kdeObjective [0, 1] 4 none none (1/20) = 0 ↔
      gSpec (([0, 1] : List ℝ).length : ℝ)
        (descent (([0, 1] : List ℝ).length : ℝ) kdeI (kdeA2 [0, 1] 4 none none) (gridN 4 - 1))
        (1/20) = 0) :=
  ⟨(c2_bracketed_root_equation (fun _ _ _ => (1/20 : ℝ)) [0, 1] 4 none none).1,
    by norm_num, by norm_num,
    (c2_bracketed_root_equation (fun _ _ _ => (1/20 : ℝ)) [0, 1] 4 none none).2 (1/20)
      (by norm_num) (by norm_num)⟩

/- ### C1 -/

/-- C1 counterexample: the loop body of lines 60-64 does *not* update `f` to
the moment sum of order `s - 1`: at order `s = 7` with one moment term
`I = a2 = (1)`, sample count `M = 1` and carried value `f = 1`, the code's
update (order 7) differs from `phi 6` at the just-computed time. -/
theorem c1_counterexample :
    descentStep 1 (fun _ => 1) (fun _ => 1) 1 1 7 ≠
      phi (fun _ => 1) (fun _ => 1) 1 6 (timeS 1 1 7) := by
  have key : ∀ T : ℝ, phi (fun _ => 1) (fun _ => 1) 1 7 T ≠ phi (fun _ => 1) (fun _ => 1) 1 6 T := by
    intro T h
    have hpi1 : (1 : ℝ) < Real.pi := by linarith [Real.pi_gt_three]
    have hlt : Real.pi ^ (2 * 6) < Real.pi ^ (2 * 7) := pow_lt_pow_right₀ hpi1 (by norm_num)
    have hE : (0 : ℝ) < Real.exp (-(1 : ℝ) * Real.pi ^ 2 * T) := Real.exp_pos _
    simp only [phi, Finset.sum_range_one, one_pow, one_mul] at h
    nlinarith [mul_pos (sub_pos.mpr hlt) hE]
  exact key (timeS 1 1 7)

/-- C1 (amended): the descent of lines 59-64 initializes `f = phi 7 t`, then
runs six descending iterations `s = 7, 6, 5, 4, 3, 2`; iteration `s` computes
`time(s) = (2 const(s) K0(s) / (M f))^(2/(3+2s))` with the spec's constants
and updates `f` to the moment sum of the *same* order `s` (not `s - 1`)
evaluated at that time, terminating with `f = phi 2 (time(2))`. -/
theorem c1_amended_descent_orders (M t : ℝ) (Iv a2 : ℕ → ℝ) (n : ℕ) :
    descent M Iv a2 n t =
      phi Iv a2 n 2 (specTime M 2
        (phi Iv a2 n 3 (specTime M 3
          (phi Iv a2 n 4 (specTime M 4
            (phi Iv a2 n 5 (specTime M 5
              (phi Iv a2 n 6 (specTime M 6
                (phi Iv a2 n 7 (specTime M 7
                  (phi Iv a2 n 7 t)))))))))))) := by
  simp only [descent, List.foldl, descentStep, timeS, specTime, constS, K0_eq_K0spec, div_div]

/- ### C5 -/

/-- The value `2**ceil(log2(n))` of line 22 is at least `n` (for positive `n`). -/
lemma le_gridN (n : ℕ) (h : 1 ≤ n) : n ≤ gridN n := by
  have h1 : (1 : ℝ) ≤ (n : ℝ) := by exact_mod_cast h
  have hn0 : (0 : ℝ) < (n : ℝ) := by linarith
  have hlog : 0 ≤ Real.logb 2 (n : ℝ) := Real.logb_nonneg (by norm_num) h1
  have hle : Real.logb 2 (n : ℝ) ≤ ((⌈Real.logb 2 (n : ℝ)⌉.toNat : ℕ) : ℝ) := by
    refine (Int.le_ceil _).trans ?_
    exact_mod_cast Int.self_le_toNat _
  have hpow : (n : ℝ) ≤ (2 : ℝ) ^ ((⌈Real.logb 2 (n : ℝ)⌉.toNat : ℕ) : ℝ) :=
    (Real.logb_le_iff_le_rpow (by norm_num) hn0).mp hle
  rw [Real.rpow_natCast] at hpow
  have : (n : ℝ) ≤ ((2 ^ ⌈Real.logb 2 (n : ℝ)⌉.toNat : ℕ) : ℝ) := by
    push_cast
    exact hpow
  exact_mod_cast this

/-- The value `2**ceil(log2(n))` is the least power of two at or above `n`. -/
lemma gridN_le_pow (n m : ℕ) (h1 : 1 ≤ n) (h : n ≤ 2 ^ m) : gridN n ≤ 2 ^ m := by
  have hn0 : (0 : ℝ) < (n : ℝ) := by exact_mod_cast h1
  have hcast : (n : ℝ) ≤ (2 : ℝ) ^ ((m : ℕ) : ℝ) := by
    rw [Real.rpow_natCast]
    exact_mod_cast h
  have hlog : Real.logb 2 (n : ℝ) ≤ (m : ℝ) :=
    (Real.logb_le_iff_le_rpow (by norm_num) hn0).mpr hcast
  have hceil : ⌈Real.logb 2 (n : ℝ)⌉ ≤ (m : ℤ) := Int.ceil_le.mpr (by exact_mod_cast hlog)
  have htn : ⌈Real.logb 2 (n : ℝ)⌉.toNat ≤ m := Int.toNat_le.mpr hceil
  exact Nat.pow_le_pow_right (by norm_num) htn

/-- C5: for every positive requested grid size, line 22 coerces it to the
smallest power of two at or above it (a power of two is kept unchanged), and
the mesh the estimator returns has exactly this coerced length. -/
theorem c5_grid_power_of_two (n : ℕ) (h : 1 ≤ n) :
    (∃ k, gridN n = 2 ^ k) ∧
    n ≤ gridN n ∧
    (∀ m, n ≤ 2 ^ m → gridN n ≤ 2 ^ m) ∧
    ((∃ k, n = 2 ^ k) → gridN n = n) ∧
    ∀ (brentqO : (ℝ → ℝ) → ℝ → ℝ → ℝ) (data : List ℝ) (MINo MAXo : Option ℝ),
      ((kde brentqO data n MINo MAXo).mesh).length = gridN n := by
  refine ⟨⟨_, rfl⟩, le_gridN n h, fun m hm => gridN_le_pow n m h hm, ?_, ?_⟩
  · rintro ⟨k, hk⟩
    refine le_antisymm ?_ (le_gridN n h)
    calc gridN n ≤ 2 ^ k := gridN_le_pow n k h (le_of_eq hk)
    _ = n := hk.symm
  · intro brentqO data MINo MAXo
    simp [kde, kdeMesh]

/-- Witness for C5 at the requested (already power-of-two) size 4 and at the
non-power size 5. -/
theorem c5_witness :
    ((∃ k, gridN 5 = 2 ^ k) ∧ 5 ≤ gridN 5 ∧ gridN 5 ≤ 2 ^ 3) ∧ gridN 4 = 4 :=
  ⟨⟨(c5_grid_power_of_two 5 (by norm_num)).1,
    (c5_grid_power_of_two 5 (by norm_num)).2.1,
    (c5_grid_power_of_two 5 (by norm_num)).2.2.1 3 (by norm_num)⟩,
    (c5_grid_power_of_two 4 (by norm_num)).2.2.2.1 ⟨2, by norm_num⟩⟩

/- ### C6 -/

/-- A left fold of `min` is a lower bound for the seed and every element. -/
lemma foldl_min_le : ∀ (xs : List ℝ) (x y : ℝ), y ∈ x :: xs → xs.foldl min x ≤ y := by
  intro xs
  induction xs with
  | nil =>
    intro x y hy
    rw [List.mem_singleton] at hy
    simp [hy]
  | cons z zs ih =>
    intro x y hy
    simp only [List.foldl_cons]
    rcases List.mem_cons.mp hy with h | h
    · exact ((ih (min x z) (min x z) (List.mem_cons_self _ _)).trans (min_le_left x z)).trans
        (le_of_eq h.symm)
    · rcases List.mem_cons.mp h with h2 | h2
      · exact ((ih (min x z) (min x z) (List.mem_cons_self _ _)).trans (min_le_right x z)).trans
          (le_of_eq h2.symm)
      · exact ih (min x z) y (List.mem_cons_of_mem _ h2)

/-- A left fold of `max` is an upper bound for the seed and every element. -/
lemma le_foldl_max : ∀ (xs : List ℝ) (x y : ℝ), y ∈ x :: xs → y ≤ xs.foldl max x := by
  intro xs
  induction xs with
  | nil =>
    intro x y hy
    rw [List.mem_singleton] at hy
    simp [hy]
  | cons z zs ih =>
    intro x y hy
    simp only [List.foldl_cons]
    rcases List.mem_cons.mp hy with h | h
    · exact (le_of_eq h).trans ((le_max_left x z).trans
        (ih (max x z) (max x z) (List.mem_cons_self _ _)))
    · rcases List.mem_cons.mp h with h2 | h2
      · exact (le_of_eq h2).trans ((le_max_right x z).trans
          (ih (max x z) (max x z) (List.mem_cons_self _ _)))
      · exact ih (max x z) y (List.mem_cons_of_mem _ h2)

/-- The minimum `np.min` bounds every sample from below. -/
lemma dataMin_le_of_mem {data : List ℝ} {y : ℝ} (hy : y ∈ data) : dataMin data ≤ y := by
  cases data with
  | nil => exact absurd hy (List.not_mem_nil y)
  | cons x xs => exact foldl_min_le xs x y hy

/-- The maximum `np.max` bounds every sample from above. -/
lemma le_dataMax_of_mem {data : List ℝ} {y : ℝ} (hy : y ∈ data) : y ≤ dataMax data := by
  cases data with
  | nil => exact absurd hy (List.not_mem_nil y)
  | cons x xs => exact le_foldl_max xs x y hy

/-- C6: with default bounds and a sample set containing two distinct values,
the estimator returns `bandwidth = sqrt(t_star) * (MAX - MIN)` (line 50), and
whenever the root finder honours its bracket contract (`t_star > 0`) this
bandwidth is strictly positive. -/
theorem c6_bandwidth_formula_pos (brentqO : (ℝ → ℝ) → ℝ → ℝ → ℝ) (data : List ℝ) (Nreq : ℕ)
    (a b : ℝ) (ha : a ∈ data) (hb : b ∈ data) (hab : a ≠ b)
    (ht : 0 < kdeTstar brentqO data Nreq none none) :
    (kde brentqO data Nreq none none).bandwidth =
      Real.sqrt (kdeTstar brentqO data Nreq none none) * (kdeMAX data none - kdeMIN data none) ∧
    0 < (kde brentqO data Nreq none none).bandwidth := by
  have hminmax : dataMin data < dataMax data := by
    rcases lt_or_gt_of_ne hab with h | h
    · exact lt_of_le_of_lt (dataMin_le_of_mem ha) (lt_of_lt_of_le h (le_dataMax_of_mem hb))
    · exact lt_of_le_of_lt (dataMin_le_of_mem hb) (lt_of_lt_of_le h (le_dataMax_of_mem ha))
  have hR : 0 < kdeR data none none := by
    simp only [kdeR, kdeMAX, kdeMIN]
    linarith
  exact ⟨rfl, mul_pos (Real.sqrt_pos.mpr ht) hR⟩

/-- Witness for C6 at the sample list `[0, 1]` with an oracle returning
`1/20 ∈ (0, 0.1)`. -/
theorem c6_witness :
    (kde (fun _ _ _ => (1/20 : ℝ)) [0, 1] 4 none none).bandwidth =
      Real.sqrt (kdeTstar (fun _ _ _ => (1/20 : ℝ)) [0, 1] 4 none none) *
        (kdeMAX [0, 1] none - kdeMIN [0, 1] none) ∧
    0 < (kde (fun _ _ _ => (1/20 : ℝ)) [0, 1] 4 none none).bandwidth := by
  refine c6_bandwidth_formula_pos _ _ _ 0 1 ?_ ?_ ?_ ?_
  · simp
  · simp
  · norm_num
  · show (0 : ℝ) < 1/20
    norm_num

/- ### C7 -/

/-- C7 counterexample: on the concrete data `[0, 1]` a bracket failure
(`brentq` reporting no sign change) and an invalid-input failure
(`np.histogram` rejecting `MIN = 5 > 2 = MAX`) both surface as Python
`ValueError`s — the numerical failure is *not* a distinct error class. -/
theorem c7_counterexample :
    kdeE (fun _ _ _ => .error .valueErrorSignChange) [0, 1] 4 none none =
        .error PyExn.valueErrorSignChange ∧
    kdeE (fun _ _ _ => .ok (1/20)) [0, 1] 4 (some 5) (some 2) =
        .error PyExn.valueErrorRange ∧
    exnIsValueError .valueErrorSignChange = exnIsValueError .valueErrorRange := by
  refine ⟨?_, ?_, rfl⟩
  · have h1 : dataMax [(0 : ℝ), 1] = 1 := by
      simp [dataMax, max_eq_right (by norm_num : (0 : ℝ) ≤ 1)]
    have h2 : dataMin [(0 : ℝ), 1] = 0 := by
      simp [dataMin, min_eq_left (by norm_num : (0 : ℝ) ≤ 1)]
    have hcond : ¬ kdeMAX [(0 : ℝ), 1] none < kdeMIN [(0 : ℝ), 1] none := by
      simp only [kdeMAX, kdeMIN, h1, h2]
      norm_num
    simp only [kdeE, if_neg hcond]
  · have hcond : kdeMAX [(0 : ℝ), 1] (some 2) < kdeMIN [(0 : ℝ), 1] (some 5) := by
      show (2 : ℝ) < 5
      norm_num
    simp only [kdeE, if_pos hcond]

/-- C7 (amended): when the root finder reports the no-sign-change failure on
the bracket `(0, 0.1)` (and the inputs pass the histogram's range check), the
estimator surfaces exactly that error, synchronously, and returns no result —
but the error is a Python `ValueError`, the same class as invalid-input
failures, distinguished only by its condition and origin. -/
theorem c7_amended_propagation (brentqE : (ℝ → ℝ) → ℝ → ℝ → Except PyExn ℝ) (data : List ℝ)
    (Nreq : ℕ) (MINo MAXo : Option ℝ) (e : PyExn)
    (hrange : ¬ kdeMAX data MAXo < kdeMIN data MINo)
    (hfail : brentqE (kdeObjective data Nreq MINo MAXo) 0 0.1 = .error e) :
    kdeE brentqE data Nreq MINo MAXo = .error e ∧
      ∀ r : KDEResult, kdeE brentqE data Nreq MINo MAXo ≠ .ok r := by
  have h1 : kdeE brentqE data Nreq MINo MAXo = .error e := by
    simp only [kdeE, if_neg hrange, hfail]
  refine ⟨h1, fun r hr => ?_⟩
  rw [h1] at hr
  cases hr

/-- Witness for C7 at the data `[0, 1]` with explicit bounds `[0, 1]` and an
oracle reporting the sign-change failure. -/
theorem c7_witness :
    kdeE (fun _ _ _ => .error .valueErrorSignChange) [0, 1] 4 (some 0) (some 1) =
        .error PyExn.valueErrorSignChange ∧
    ∀ r : KDEResult,
      kdeE (fun _ _ _ => .error .valueErrorSignChange) [0, 1] 4 (some 0) (some 1) ≠ .ok r := by
  refine c7_amended_propagation _ _ _ _ _ _ ?_ rfl
  show ¬ (1 : ℝ) < 0
  norm_num

/- ### C9 -/

/-- Every bin edge is at or above the range minimum. -/
lemma binEdge_ge (mn mx : ℝ) (N : ℕ) (hmm : mn ≤ mx) (i : ℕ) : mn ≤ binEdge mn mx N i := by
  have hw : 0 ≤ (mx - mn) / (N : ℝ) := div_nonneg (by linarith) (Nat.cast_nonneg N)
  have : 0 ≤ (i : ℝ) * ((mx - mn) / (N : ℝ)) := mul_nonneg (Nat.cast_nonneg i) hw
  simp only [binEdge]
  linarith

/-- Bin edges are monotone in the index. -/
lemma binEdge_mono (mn mx : ℝ) (N : ℕ) (hmm : mn ≤ mx) {a b : ℕ} (hab : a ≤ b) :
    binEdge mn mx N a ≤ binEdge mn mx N b := by
  have hw : 0 ≤ (mx - mn) / (N : ℝ) := div_nonneg (by linarith) (Nat.cast_nonneg N)
  have : (a : ℝ) * ((mx - mn) / (N : ℝ)) ≤ (b : ℝ) * ((mx - mn) / (N : ℝ)) :=
    mul_le_mul_of_nonneg_right (by exact_mod_cast hab) hw
  simp only [binEdge]
  linarith

/-- The last bin edge is the range maximum. -/
lemma binEdge_last (mn mx : ℝ) (N : ℕ) (hN : 0 < N) : binEdge mn mx N N = mx := by
  have hN' : (N : ℝ) ≠ 0 := Nat.cast_ne_zero.mpr hN.ne'
  simp only [binEdge]
  field_simp

/-- Unfolding of the bin-membership test into its two inequalities. -/
lemma inBinB_true_iff (mn mx : ℝ) (N i : ℕ) (x : ℝ) :
    inBinB mn mx N i x = true ↔
      (binEdge mn mx N i ≤ x ∧
        (if i + 1 = N then x ≤ mx else x < binEdge mn mx N (i + 1))) := by
  by_cases h : i + 1 = N <;> simp [inBinB, h]

/-- A sample outside `[mn, mx]` lands in no bin. -/
lemma out_of_range_not_inBin (mn mx : ℝ) (N : ℕ) (hN : 0 < N) (hmm : mn ≤ mx)
    {x : ℝ} (hx : x < mn ∨ mx < x) {i : ℕ} (hi : i < N) : inBinB mn mx N i x = false := by
  rw [Bool.eq_false_iff]
  intro htrue
  rw [inBinB_true_iff] at htrue
  rcases hx with hx | hx
  · exact absurd htrue.1 (by linarith [binEdge_ge mn mx N hmm i])
  · have h2 := htrue.2
    by_cases hiN : i + 1 = N
    · rw [if_pos hiN] at h2
      linarith
    · rw [if_neg hiN] at h2
      have : binEdge mn mx N (i + 1) ≤ binEdge mn mx N N := binEdge_mono mn mx N hmm (by omega)
      rw [binEdge_last mn mx N hN] at this
      linarith

/-- C9: if every sample lies outside the caller-supplied bounds `[mn, mx]`
nothing rejects the input: the empirical mass vector is identically zero, so
every spectral coefficient, every squared coefficient `a2[i]`, and the
descent's initial `f = phi 7 t` are zero — whence the first iteration's
`time` is computed with divisor `f = 0`. -/
theorem c9_out_of_range_zeroes (data : List ℝ) (Nreq : ℕ) (mn mx : ℝ)
    (hmm : mn < mx) (hout : ∀ x ∈ data, x < mn ∨ mx < x) :
    (∀ i, i < gridN Nreq → kdeHist data Nreq (some mn) (some mx) i = 0) ∧
    (∀ k, kdeDCTData data Nreq (some mn) (some mx) k = 0) ∧
    (∀ i, kdeA2 data Nreq (some mn) (some mx) i = 0) ∧
    (∀ t, phi kdeI (kdeA2 data Nreq (some mn) (some mx)) (gridN Nreq - 1) 7 t = 0) ∧
    (∀ t, timeS (data.length : ℝ)
        (phi kdeI (kdeA2 data Nreq (some mn) (some mx)) (gridN Nreq - 1) 7 t) 7 =
      (2 * constS 7 * K0 7 / (data.length : ℝ) / 0) ^ ((2 : ℝ) / (3 + 2 * ((7 : ℕ) : ℝ)))) := by
  have hN : 0 < gridN Nreq := Nat.pos_pow_of_pos _ (by norm_num)
  have hhist : ∀ i, i < gridN Nreq → kdeHist data Nreq (some mn) (some mx) i = 0 := by
    intro i hi
    have hcount : histCount data mn mx (gridN Nreq) i = 0 := by
      rw [histCount, List.countP_eq_zero]
      intro x hx
      rw [out_of_range_not_inBin mn mx (gridN Nreq) hN hmm.le (hout x hx) hi]
      simp
    simp [kdeHist, histMass, kdeMIN, kdeMAX, hcount]
  have hdct : ∀ k, kdeDCTData data Nreq (some mn) (some mx) k = 0 := by
    intro k
    rw [kdeDCTData, dctOrtho, Finset.sum_eq_zero, mul_zero]
    intro n hn
    rw [hhist n (Finset.mem_range.mp hn), zero_mul]
  have ha2 : ∀ i, kdeA2 data Nreq (some mn) (some mx) i = 0 := by
    intro i
    rw [kdeA2, hdct]
    norm_num
  have hphi : ∀ t, phi kdeI (kdeA2 data Nreq (some mn) (some mx)) (gridN Nreq - 1) 7 t = 0 := by
    intro t
    rw [phi, Finset.sum_eq_zero, mul_zero]
    intro i _
    rw [ha2 i]
    ring
  refine ⟨hhist, hdct, ha2, hphi, fun t => ?_⟩
  rw [hphi t, timeS]

/-- Witness for C9: the single sample `10` against bounds `[0, 1]`. -/
theorem c9_witness :
    (∀ i, i < gridN 4 → kdeHist [(10 : ℝ)] 4 (some 0) (some 1) i = 0) ∧
    (∀ k, kdeDCTData [(10 : ℝ)] 4 (some 0) (some 1) k = 0) ∧
    (∀ i, kdeA2 [(10 : ℝ)] 4 (some 0) (some 1) i = 0) ∧
    (∀ t, phi kdeI (kdeA2 [(10 : ℝ)] 4 (some 0) (some 1)) (gridN 4 - 1) 7 t = 0) ∧
    (∀ t, timeS (([(10 : ℝ)] : List ℝ).length : ℝ)
        (phi kdeI (kdeA2 [(10 : ℝ)] 4 (some 0) (some 1)) (gridN 4 - 1) 7 t) 7 =
      (2 * constS 7 * K0 7 / (([(10 : ℝ)] : List ℝ).length : ℝ) / 0) ^
        ((2 : ℝ) / (3 + 2 * ((7 : ℕ) : ℝ)))) := by
  refine c9_out_of_range_zeroes [(10 : ℝ)] 4 0 1 (by norm_num) ?_
  intro x hx
  rw [List.mem_singleton] at hx
  subst hx
  right
  norm_num

/- ### C4 -/

/-- Any in-range sample lands in exactly one of the `N` bins. -/
lemma bin_exists_unique (mn mx : ℝ) (N : ℕ) (hN : 0 < N) (hmm : mn < mx)
    (x : ℝ) (hx1 : mn ≤ x) (hx2 : x ≤ mx) :
    ∃ j, j < N ∧ inBinB mn mx N j x = true ∧
      ∀ i, i < N → inBinB mn mx N i x = true → i = j := by
  have hdisj : ∀ i j, i < j → j < N → inBinB mn mx N i x = true →
      inBinB mn mx N j x = true → False := by
    intro i j hij hjN hi hj
    rw [inBinB_true_iff] at hi hj
    have hi2 : x < binEdge mn mx N (i + 1) := by
      have hne : i + 1 ≠ N := by omega
      have := hi.2
      rw [if_neg hne] at this
      exact this
    have hmono : binEdge mn mx N (i + 1) ≤ binEdge mn mx N j :=
      binEdge_mono mn mx N hmm.le (by omega)
    linarith [hj.1]
  by_cases hlast : binEdge mn mx N (N - 1) ≤ x
  · have hj : inBinB mn mx N (N - 1) x = true := by
      rw [inBinB_true_iff]
      refine ⟨hlast, ?_⟩
      rw [if_pos (by omega)]
      exact hx2
    refine ⟨N - 1, by omega, hj, ?_⟩
    intro i hiN hi
    by_contra hne
    exact hdisj i (N - 1) (by omega) (by omega) hi hj
  · have hSne : ((Finset.range N).filter fun i => binEdge mn mx N i ≤ x).Nonempty := by
      refine ⟨0, Finset.mem_filter.mpr ⟨Finset.mem_range.mpr hN, ?_⟩⟩
      simpa [binEdge] using hx1
    set S := (Finset.range N).filter fun i => binEdge mn mx N i ≤ x with hS
    set j := S.max' hSne with hjdef
    have hjS : j ∈ S := S.max'_mem hSne
    have hjN : j < N := Finset.mem_range.mp (Finset.mem_filter.mp hjS).1
    have hjx : binEdge mn mx N j ≤ x := (Finset.mem_filter.mp hjS).2
    have hjne : j ≠ N - 1 := by
      intro h
      exact hlast (h ▸ hjx)
    have hj1N : j + 1 < N := by omega
    have hjx2 : x < binEdge mn mx N (j + 1) := by
      by_contra hcon
      push_neg at hcon
      have hmem : j + 1 ∈ S := Finset.mem_filter.mpr ⟨Finset.mem_range.mpr hj1N, hcon⟩
      have := S.le_max' _ hmem
      omega
    have hjbin : inBinB mn mx N j x = true := by
      rw [inBinB_true_iff]
      refine ⟨hjx, ?_⟩
      rw [if_neg (by omega)]
      exact hjx2
    refine ⟨j, hjN, hjbin, ?_⟩
    intro i hiN hi
    rcases lt_trichotomy i j with h | h | h
    · exact (hdisj i j h hjN hi hjbin).elim
    · exact h
    · exact (hdisj j i h hiN hjbin hi).elim

/-- If each list element satisfies exactly one of the `N` predicates, the bin
counts add up to the list length. -/
lemma countP_partition (N : ℕ) (p : ℕ → ℝ → Bool) (l : List ℝ)
    (h : ∀ x ∈ l, ∃ j, j < N ∧ p j x = true ∧ ∀ i, i < N → p i x = true → i = j) :
    ∑ i in Finset.range N, l.countP (p i) = l.length := by
  induction l with
  | nil => simp
  | cons a l ih =>
    obtain ⟨j, hjN, hpj, huniq⟩ := h a (List.mem_cons_self a l)
    have ihl := ih fun x hx => h x (List.mem_cons_of_mem a hx)
    simp only [List.countP_cons, List.length_cons]
    rw [Finset.sum_add_distrib, ihl]
    congr 1
    rw [Finset.sum_eq_single_of_mem j (Finset.mem_range.mpr hjN)]
    · rw [if_pos hpj]
    · intro b hb hbj
      rw [if_neg]
      intro hpb
      exact hbj (huniq b (Finset.mem_range.mp hb) hpb)

/-- C4: for a nonempty sample list lying inside `[mn, mx]` (with `mn < mx`
and a positive bin count), the empirical mass vector of lines 35-36 is
nonnegative, sums to 1 over the `N` bins, has entry `i` equal to the fraction
of the `M` samples in bin `i`, and out-of-range samples are excluded from
every bin without any error. -/
theorem c4_histogram_mass (data : List ℝ) (mn mx : ℝ) (N : ℕ)
    (hN : 0 < N) (hmm : mn < mx) (hne : data ≠ [])
    (hin : ∀ x ∈ data, mn ≤ x ∧ x ≤ mx) :
    (∀ i, 0 ≤ histMass data mn mx N i) ∧
    (∑ i in Finset.range N, histMass data mn mx N i = 1) ∧
    (∀ i, histMass data mn mx N i =
      ((data.countP (inBinB mn mx N i) : ℕ) : ℝ) / ((data.length : ℕ) : ℝ)) ∧
    (∀ x, (x < mn ∨ mx < x) → ∀ i, i < N → inBinB mn mx N i x = false) := by
  refine ⟨fun i => div_nonneg (Nat.cast_nonneg _) (Nat.cast_nonneg _), ?_, fun i => rfl, ?_⟩
  · have hsum : ∑ i in Finset.range N, (data.countP (inBinB mn mx N i)) = data.length :=
      countP_partition N _ data fun x hx =>
        bin_exists_unique mn mx N hN hmm x (hin x hx).1 (hin x hx).2
    have hM : ((data.length : ℕ) : ℝ) ≠ 0 :=
      Nat.cast_ne_zero.mpr (List.length_pos.mpr hne).ne'
    simp only [histMass, histCount]
    rw [← Finset.sum_div, ← Nat.cast_sum, hsum, div_self hM]
  · intro x hx i hiN
    exact out_of_range_not_inBin mn mx N hN hmm.le hx hiN

/-- Witness for C4: the single sample `1/2` on `[0, 1]` with two bins. -/
theorem c4_witness :
    (∀ i, 0 ≤ histMass [(1/2 : ℝ)] 0 1 2 i) ∧
    (∑ i in Finset.range 2, histMass [(1/2 : ℝ)] 0 1 2 i = 1) ∧
    (∀ i, histMass [(1/2 : ℝ)] 0 1 2 i =
      ((([(1/2 : ℝ)] : List ℝ).countP (inBinB 0 1 2 i) : ℕ) : ℝ) /
        ((([(1/2 : ℝ)] : List ℝ).length : ℕ) : ℝ)) ∧
    (∀ x, (x < 0 ∨ 1 < x) → ∀ i, i < 2 → inBinB 0 1 2 i x = false) := by
  refine c4_histogram_mass [(1/2 : ℝ)] 0 1 2 (by norm_num) (by norm_num) (by simp) ?_
  intro x hx
  rw [List.mem_singleton] at hx
  subst hx
  constructor <;> norm_num
